import Mathlib

/-!
Verification of the codex-review domain logic.

This file gives a shallow embedding in Lean 4 of the parts of the
repository that the verified properties concern:

* `packages/domain/src/findings.ts` — deduplication, scoring and ranking
  of review findings;
* `packages/domain/src/chatops.ts` — parsing of `/codex` ChatOps commands;
* `packages/domain/src/diff.ts` — conversion of unified diffs into GitHub
  suggestion blocks;
* the JSON-RPC request encoder / message parser of the app-server client
  and the failure handling of the client on subprocess exit;
* the normalization-turn finding parser and the `explain_finding`
  handler of the run orchestrator.

Modelling conventions:

* JavaScript numbers are modelled as rationals (`ℚ`); a number that may
  be `NaN` is modelled as `Option ℚ` with `none` standing for `NaN`
  (JSON values cannot contain `NaN`, so plain `ℚ` is used for numbers
  obtained from `JSON.parse`).
* JavaScript strings are handled through their character lists; the
  whitespace class is the ASCII whitespace characters.
* `sha256` hex digests and JavaScript number-to-string conversion are
  kept abstract: the development is parametrised by a `JsEnv` providing
  them, and every theorem holds for an arbitrary environment.
* JavaScript `Map`s are modelled as insertion-ordered association lists,
  with `set` on an existing key replacing the value in place.
-/

/-- A JSON value, as produced by `JSON.parse`.  Object fields are kept in
insertion order; objects produced by `JSON.parse` have pairwise distinct
keys. -/
inductive Json where
  | jnull : Json
  | jbool : Bool → Json
  | jnum : ℚ → Json
  | jstr : String → Json
  | jarr : List Json → Json
  | jobj : List (String × Json) → Json

/-- Field lookup in a JSON object field list (first match). -/
def jsonGet (fields : List (String × Json)) (key : String) : Option Json :=
  match fields with
  | [] => none
  | (k, v) :: rest => if k = key then some v else jsonGet rest key

/-- Object-spread update `{...fields, key: v}`: replace the value in place
when the key is present, append otherwise. -/
def jsonSet (fields : List (String × Json)) (key : String) (v : Json) :
    List (String × Json) :=
  match fields with
  | [] => [(key, v)]
  | (k, w) :: rest =>
      if k = key then (key, v) :: rest else (k, w) :: jsonSet rest key v

/-- ASCII whitespace, standing in for the JavaScript `\s` class. -/
def jsIsWs (c : Char) : Bool :=
  c = ' ' || c = '\t' || c = '\n' || c = '\r' || c = '\x0b' || c = '\x0c'

/-- `String.prototype.trim` on a character list. -/
def jsTrimList (l : List Char) : List Char :=
  ((l.dropWhile jsIsWs).reverse.dropWhile jsIsWs).reverse

/-- `String.prototype.trim`. -/
def jsTrim (s : String) : String :=
  String.mk (jsTrimList s.data)

/-- `String.prototype.toLowerCase` (ASCII case mapping). -/
def jsLower (s : String) : String :=
  String.mk (s.data.map Char.toLower)

/-- `replace(/\s+/g, ' ')` on a character list: every maximal whitespace
run becomes a single space. -/
def collapseWsList : List Char → List Char
  | [] => []
  | [c] => if jsIsWs c then [' '] else [c]
  | c₁ :: c₂ :: rest =>
      if jsIsWs c₁ && jsIsWs c₂ then collapseWsList (c₂ :: rest)
      else (if jsIsWs c₁ then ' ' else c₁) :: collapseWsList (c₂ :: rest)

/-- `replace(/\s+/g, ' ')`. -/
def collapseWs (s : String) : String :=
  String.mk (collapseWsList s.data)

/-- List prefix test (model of `String.prototype.startsWith`). -/
def listIsPrefix : List Char → List Char → Bool
  | [], _ => true
  | _ :: _, [] => false
  | p :: ps, c :: cs => p = c && listIsPrefix ps cs

/-- `String.prototype.startsWith`. -/
def jsStartsWith (s p : String) : Bool :=
  listIsPrefix p.data s.data

/-- `Array.prototype.join(sep)` over strings. -/
def joinSep (sep : String) : List String → String
  | [] => ""
  | [s] => s
  | s :: rest => s ++ sep ++ joinSep sep rest

/-- The platform functions the domain code uses but does not define:
`sha256` hex digests and JavaScript number formatting.  Every theorem
below is proved for an arbitrary environment. -/
structure JsEnv where
  sha256hex : String → String
  numToStr : ℚ → String

/-- `ReviewRole` from `packages/domain/src/types.ts`. -/
inductive ReviewRole where
  | correctness | security | maintainability
deriving DecidableEq

/-- `Severity` from `packages/domain/src/types.ts`. -/
inductive Severity where
  | low | medium | high | critical
deriving DecidableEq

/-- The `severityWeight` record of `findings.ts`. -/
def severityWeight : Severity → ℚ
  | .low => 1
  | .medium => 2
  | .high => 3
  | .critical => 4

/-- The `roleBonus` record of `findings.ts` (`0.6`, `0.9`, `0.5`,
written as explicit rationals so that the kernel can evaluate them). -/
def roleBonus : ReviewRole → ℚ
  | .correctness => mkRat 6 10
  | .security => mkRat 9 10
  | .maintainability => mkRat 5 10

/-- `Math.max(a, b)` (kernel-evaluable formulation of `max` on `ℚ`). -/
def qMax (a b : ℚ) : ℚ := if a ≤ b then b else a

/-- `Math.min(a, b)` (kernel-evaluable formulation of `min` on `ℚ`). -/
def qMin (a b : ℚ) : ℚ := if a ≤ b then a else b

/-- Exact rational addition, phrased through `mkRat` so that the kernel
can evaluate it (`Rat.add` is `@[irreducible]`). -/
def qAdd (a b : ℚ) : ℚ :=
  mkRat (a.num * (b.den : ℤ) + b.num * (a.den : ℤ)) (a.den * b.den)

/-- Exact rational multiplication, phrased through `mkRat` so that the
kernel can evaluate it. -/
def qMul (a b : ℚ) : ℚ := mkRat (a.num * b.num) (a.den * b.den)

theorem qMax_eq (a b : ℚ) : qMax a b = max a b := (max_def a b).symm

theorem qMin_eq (a b : ℚ) : qMin a b = min a b := (min_def a b).symm

theorem qAdd_eq (a b : ℚ) : qAdd a b = a + b := by
  have ha : (a.den : ℚ) ≠ 0 := Nat.cast_ne_zero.mpr a.den_nz
  have hb : (b.den : ℚ) ≠ 0 := Nat.cast_ne_zero.mpr b.den_nz
  rw [qAdd, Rat.mkRat_eq_div]
  conv_rhs => rw [← Rat.num_div_den a, ← Rat.num_div_den b]
  rw [div_add_div _ _ ha hb]
  push_cast
  ring_nf

theorem qMul_eq (a b : ℚ) : qMul a b = a * b := by
  have ha : (a.den : ℚ) ≠ 0 := Nat.cast_ne_zero.mpr a.den_nz
  have hb : (b.den : ℚ) ≠ 0 := Nat.cast_ne_zero.mpr b.den_nz
  rw [qMul, Rat.mkRat_eq_div]
  conv_rhs => rw [← Rat.num_div_den a, ← Rat.num_div_den b]
  rw [div_mul_div_comm]
  push_cast
  ring_nf

theorem ratFloor_eq (q : ℚ) : Rat.floor q = ⌊q⌋ := by
  rw [Rat.floor_def', ← Rat.floor_def]

/-- `Math.min(1, Math.max(0, v))` on a genuine (non-`NaN`) number. -/
def clampQ (v : ℚ) : ℚ := qMin 1 (qMax 0 v)

/-- `clampConfidence` from `findings.ts`: `NaN` (modelled as `none`)
becomes `0`, other values are clamped to `[0, 1]`. -/
def clampConfidence : Option ℚ → ℚ
  | none => 0
  | some v => clampQ v

/-- `Finding` from `packages/domain/src/types.ts`.  `confidence` may be
`NaN`, hence `Option ℚ`. -/
structure Finding where
  id : String
  repo : String
  prNumber : ℚ
  role : ReviewRole
  severity : Severity
  confidence : Option ℚ
  file : String
  startLine : ℚ
  endLine : ℚ
  title : String
  issueKey : String
  evidence : List (String × Json)
  dedupeKey : String

/-- `RankedFinding` from `packages/domain/src/types.ts`.  Records built by
`dedupeFindings` always carry an already-clamped confidence, hence `ℚ`. -/
structure RankedFinding where
  id : String
  repo : String
  prNumber : ℚ
  role : ReviewRole
  severity : Severity
  confidence : ℚ
  file : String
  startLine : ℚ
  endLine : ℚ
  title : String
  issueKey : String
  evidence : List (String × Json)
  dedupeKey : String
  score : ℚ
  supportingRoles : List ReviewRole

/-- `buildDedupeKey` from `findings.ts`: normalise the identifying fields,
join them with `|`, hash, and keep the first 16 hex characters. -/
def buildDedupeKey (env : JsEnv) (f : Finding) : String :=
  String.mk ((env.sha256hex (joinSep "|"
    [jsLower (jsTrim f.file),
     env.numToStr (qMax 1 f.startLine),
     env.numToStr (qMax 1 f.endLine),
     collapseWs (jsLower (jsTrim f.issueKey))])).data.take 16)

/-- `higherSeverity` from `findings.ts`. -/
def higherSeverity (a b : Severity) : Severity :=
  if severityWeight b ≤ severityWeight a then a else b

/-- The dedupe key actually used by `dedupeFindings`:
`finding.dedupeKey || buildDedupeKey(finding)` (`||` falls through on the
empty string). -/
def groupKey (env : JsEnv) (f : Finding) : String :=
  if f.dedupeKey = "" then buildDedupeKey env f else f.dedupeKey

/-- Helper for `jsSetDedup`: keep the elements not already seen, in
order, remembering what has been kept. -/
def jsSetDedupAux (seen : List ReviewRole) : List ReviewRole → List ReviewRole
  | [] => []
  | a :: rest =>
      if a ∈ seen then jsSetDedupAux seen rest
      else a :: jsSetDedupAux (a :: seen) rest

/-- `Array.from(new Set(l))`: drop later duplicates, keeping first
occurrences in order. -/
def jsSetDedup (l : List ReviewRole) : List ReviewRole :=
  jsSetDedupAux [] l

/-- The record created on the first finding of a dedupe group
(`grouped.set(key, {...finding, dedupeKey: key, confidence, score: 0,
supportingRoles: [finding.role]})`). -/
def initialRecord (key : String) (f : Finding) : RankedFinding :=
  { id := f.id, repo := f.repo, prNumber := f.prNumber, role := f.role
    severity := f.severity
    confidence := clampConfidence f.confidence
    file := f.file, startLine := f.startLine, endLine := f.endLine
    title := f.title, issueKey := f.issueKey, evidence := f.evidence
    dedupeKey := key, score := 0, supportingRoles := [f.role] }

/-- The `corroboratingEvidence` array currently stored on a record's
evidence, when it is an array (`Array.isArray` guard). -/
def corroboratingOf (fields : List (String × Json)) : List Json :=
  match jsonGet fields "corroboratingEvidence" with
  | some (Json.jarr l) => l
  | _ => []

/-- The merge step for a finding whose dedupe key is already present. -/
def mergeRecord (current : RankedFinding) (f : Finding) : RankedFinding :=
  { current with
    severity := higherSeverity current.severity f.severity
    confidence := qMax current.confidence (clampConfidence f.confidence)
    title := if f.title.length ≤ current.title.length then current.title else f.title
    evidence := jsonSet current.evidence "corroboratingEvidence"
      (Json.jarr (corroboratingOf current.evidence ++ [Json.jobj f.evidence]))
    supportingRoles := jsSetDedup (current.supportingRoles ++ [f.role]) }

/-- Lookup in the insertion-ordered map that models `grouped`. -/
def mapLookup (m : List (String × RankedFinding)) (k : String) :
    Option RankedFinding :=
  match m with
  | [] => none
  | (k', v) :: rest => if k' = k then some v else mapLookup rest k

/-- `Map.prototype.set`: replace in place when present, append otherwise. -/
def mapSet (m : List (String × RankedFinding)) (k : String)
    (v : RankedFinding) : List (String × RankedFinding) :=
  match m with
  | [] => [(k, v)]
  | (k', v') :: rest =>
      if k' = k then (k, v) :: rest else (k', v') :: mapSet rest k v

/-- One iteration of the `for` loop of `dedupeFindings`. -/
def dedupeStep (env : JsEnv) (m : List (String × RankedFinding))
    (f : Finding) : List (String × RankedFinding) :=
  let key := groupKey env f
  match mapLookup m key with
  | none => mapSet m key (initialRecord key f)
  | some current => mapSet m key (mergeRecord current f)

/-- `rankScore` from `findings.ts`, on the fields it reads
(`Pick<RankedFinding, 'severity' | 'confidence' | 'supportingRoles' |
'role'>`); the confidence may be `NaN`. -/
structure ScoreInput where
  severity : Severity
  confidence : Option ℚ
  supportingRoles : List ReviewRole
  role : ReviewRole

/-- `Number(x.toFixed(4))` for the (non-negative) scores produced here:
round to four decimal places, half away from zero. -/
def roundTo4 (q : ℚ) : ℚ :=
  Rat.divInt (Rat.floor (qAdd (qMul q 10000) (mkRat 1 2))) 10000

/-- `rankScore` from `findings.ts`. -/
def rankScore (x : ScoreInput) : ℚ :=
  roundTo4 (qAdd (qAdd (qAdd (qMul (severityWeight x.severity) 10)
    (qMul (clampConfidence x.confidence) 8))
    (qMul (mkRat (x.supportingRoles.length : ℤ) 1) 5)) (roleBonus x.role))

/-- `rankScore` applied to a ranked record, as in the final `map` of
`dedupeFindings`. -/
def rankScoreOf (r : RankedFinding) : ℚ :=
  rankScore ⟨r.severity, some r.confidence, r.supportingRoles, r.role⟩

/-- `dedupeFindings` from `findings.ts`: fold the findings into the
insertion-ordered map, then list its values with their scores filled in. -/
def dedupeFindings (env : JsEnv) (findings : List Finding) :
    List RankedFinding :=
  ((findings.foldl (dedupeStep env) []).map Prod.snd).map
    (fun r => { r with score := rankScoreOf r })

/-- Lexicographic (code-point) comparison of character lists, the model
of `localeCompare` returning a negative value. -/
def charListLt : List Char → List Char → Bool
  | [], [] => false
  | [], _ :: _ => true
  | _ :: _, [] => false
  | a :: as, b :: bs =>
      if a < b then true else if b < a then false else charListLt as bs

/-- The comparator of `rankFindings` as a strict precedence: `a` sorts
strictly before `b` (comparator value `< 0`).  `localeCompare` on the ids
is modelled as lexicographic string comparison. -/
def rankPrecedes (a b : RankedFinding) : Prop :=
  b.score < a.score ∨ (a.score = b.score ∧ b.confidence < a.confidence) ∨
    (a.score = b.score ∧ a.confidence = b.confidence ∧
      charListLt a.id.data b.id.data = true)

instance (a b : RankedFinding) : Decidable (rankPrecedes a b) := by
  unfold rankPrecedes
  infer_instance

/-- Stable insertion of one record into a sorted run: the inserted record
is placed after every already-present record it does not strictly
precede, which is where a stable comparator sort must put an element
arriving later in the input. -/
def rankInsert (x : RankedFinding) : List RankedFinding → List RankedFinding
  | [] => [x]
  | y :: ys => if rankPrecedes x y then x :: y :: ys else y :: rankInsert x ys

/-- Stable sort by the comparator of `rankFindings`: the unique output a
stable sort with this comparator can produce. -/
def rankSort (l : List RankedFinding) : List RankedFinding :=
  l.foldl (fun acc x => rankInsert x acc) []

/-- `rankFindings` from `findings.ts`: dedupe, then sort by descending
score, then descending confidence, then ascending id (stable). -/
def rankFindings (env : JsEnv) (findings : List Finding) :
    List RankedFinding :=
  rankSort (dedupeFindings env findings)

/-- `topFindings` from `findings.ts`. -/
def topFindings (env : JsEnv) (findings : List Finding) (limit : ℕ) :
    List RankedFinding :=
  (rankFindings env findings).take limit

/-- `ChatOpsCommand` from `packages/domain/src/types.ts`.  The rerun
scope is stored as the (already validated) lowercased token. -/
inductive ChatOpsCommand where
  | stop : ChatOpsCommand
  | rerun : String → ChatOpsCommand
  | explain : String → ChatOpsCommand
  | patch : String → ChatOpsCommand
deriving DecidableEq

/-- `split(/\s+/)` after the first field has started: `cur` holds the
reversed characters of the current field, `inWs` records whether the
previous character was whitespace (a separator run in progress). -/
def splitWsAux : List Char → List Char → Bool → List (List Char)
  | [], cur, inWs => if inWs then [[]] else [cur.reverse]
  | c :: rest, cur, inWs =>
      if jsIsWs c then
        if inWs then splitWsAux rest [] true
        else cur.reverse :: splitWsAux rest [] true
      else splitWsAux rest (c :: cur) false

/-- `String.prototype.split(/\s+/)`: fields separated by maximal
whitespace runs (a trailing run yields a trailing empty field, as in
JavaScript). -/
def jsSplitWs (s : String) : List String :=
  (splitWsAux s.data [] false).map String.mk

/-- One character of the `^[a-zA-Z0-9_-]+$` id pattern of `chatops.ts`. -/
def isIdChar (c : Char) : Bool :=
  c.isAlpha || c.isDigit || c = '_' || c = '-'

/-- `idPattern.test` from `chatops.ts`. -/
def idPatternTest (s : String) : Bool :=
  !s.data.isEmpty && s.data.all isIdChar

/-- The `rerunScopes` set of `chatops.ts`. -/
def rerunScopes : List String :=
  ["correctness", "security", "maintainability", "all"]

/-- `parseChatOpsCommand` from `packages/domain/src/chatops.ts`. -/
def parseChatOpsCommand (body : String) : Option ChatOpsCommand :=
  let trimmed := jsTrim body
  if ¬ jsStartsWith trimmed "/codex " then none
  else if trimmed.data.contains '\n' then none
  else
    let tokens := jsSplitWs trimmed
    if tokens.length < 2 then none
    else
      let subcommand := tokens.getD 1 ""
      if subcommand = "stop" ∧ tokens.length = 2 then some .stop
      else if subcommand = "rerun" then
        let requestedScope := jsLower (tokens.getD 2 "all")
        if rerunScopes.contains requestedScope then some (.rerun requestedScope)
        else none
      else if subcommand = "explain" ∨ subcommand = "patch" then
        let findingId := tokens.getD 2 ""
        if idPatternTest findingId then
          if subcommand = "explain" then some (.explain findingId)
          else some (.patch findingId)
        else none
      else none

/-- `GithubSuggestion` from `packages/domain/src/types.ts`. -/
structure GithubSuggestion where
  filePath : String
  startLine : ℤ
  endLine : ℤ
  body : String
deriving DecidableEq

/-- The mutable state of the line loop of `toGithubSuggestions`. -/
structure DiffState where
  currentFile : Option String
  newLine : ℤ
  pendingStart : Option ℤ
  pendingBody : List String
  suggestions : List GithubSuggestion

/-- The `flush` closure of `toGithubSuggestions`: emit the pending block
when there is a (truthy) current file, a pending anchor and a non-empty
pending body; always reset the pending state. -/
def flushState (st : DiffState) : DiffState :=
  match st.currentFile, st.pendingStart, st.pendingBody with
  | some file, some p, b :: brest =>
      if file = "" then { st with pendingStart := none, pendingBody := [] }
      else
        { st with
          suggestions := st.suggestions ++
            [⟨file, p, p, joinSep "\n" (b :: brest)⟩]
          pendingStart := none, pendingBody := [] }
  | _, _, _ => { st with pendingStart := none, pendingBody := [] }

/-- Strip a literal prefix, or fail. -/
def stripLit : List Char → List Char → Option (List Char)
  | [], l => some l
  | _ :: _, [] => none
  | p :: ps, c :: cs => if p = c then stripLit ps cs else none

/-- Scan for the lazy group boundary of
`/^diff --git a\/(.+?) b\/(.+)$/`: the first position where `" b/"`
occurs with at least one character after it; return that suffix (the
second capture group). -/
def fileHeaderScan : List Char → Option String
  | [] => none
  | c :: rest =>
      if listIsPrefix (" b/").data (c :: rest) && !(rest.drop 2).isEmpty then
        some (String.mk (rest.drop 2))
      else fileHeaderScan rest

/-- Match `/^diff --git a\/(.+?) b\/(.+)$/` against a line, returning the
file path the loop assigns to `currentFile` (the second capture group). -/
def matchFileHeader (line : String) : Option String :=
  match stripLit ("diff --git a/").data line.data with
  | none => none
  | some rest =>
      match rest with
      | [] => none
      | _ :: rest' => fileHeaderScan rest'

/-- Decimal value of a digit run. -/
def digitsToNat (ds : List Char) : ℕ :=
  ds.foldl (fun n c => 10 * n + (c.toNat - '0'.toNat)) 0

/-- Consume `,\d+` when the optional group is present; fail when a comma
is present without digits (the regex cannot then continue with a space). -/
def consumeOptComma (l : List Char) : Option (List Char) :=
  match l with
  | ',' :: rest =>
      let ds := rest.takeWhile Char.isDigit
      if ds.isEmpty then none else some (rest.dropWhile Char.isDigit)
  | _ => some l

/-- Match `/^@@ -\d+(?:,\d+)? \+(\d+)(?:,\d+)? @@/` against a line,
returning the captured new-file start line. -/
def matchHunkHeader (line : String) : Option ℕ :=
  match stripLit ("@@ -").data line.data with
  | none => none
  | some r₁ =>
      let ds₁ := r₁.takeWhile Char.isDigit
      if ds₁.isEmpty then none
      else
        match consumeOptComma (r₁.dropWhile Char.isDigit) with
        | none => none
        | some r₂ =>
            match stripLit (" +").data r₂ with
            | none => none
            | some r₃ =>
                let ds₂ := r₃.takeWhile Char.isDigit
                if ds₂.isEmpty then none
                else
                  match consumeOptComma (r₃.dropWhile Char.isDigit) with
                  | none => none
                  | some r₄ =>
                      match stripLit (" @@").data r₄ with
                      | none => none
                      | some _ => some (digitsToNat ds₂)

/-- One iteration of the line loop of `toGithubSuggestions`. -/
def diffLineStep (st : DiffState) (line : String) : DiffState :=
  match matchFileHeader line with
  | some name =>
      let st' := flushState st
      { st' with currentFile := some name }
  | none =>
    match matchHunkHeader line with
    | some n =>
        let st' := flushState st
        { st' with newLine := (n : ℤ) }
    | none =>
        if jsStartsWith line "+++" || jsStartsWith line "---" then st
        else if jsStartsWith line "+" then
          let st' :=
            if st.pendingStart = none then
              { st with pendingStart := some (max 1 (st.newLine - 1)) }
            else st
          { st' with
            pendingBody := st'.pendingBody ++ [String.mk (line.data.drop 1)]
            newLine := st'.newLine + 1 }
        else if jsStartsWith line "-" then
          if st.pendingStart = none then
            { st with pendingStart := some (max 1 (st.newLine - 1)) }
          else st
        else
          let st' := flushState st
          if jsStartsWith line " " then { st' with newLine := st'.newLine + 1 }
          else st'

/-- `String.prototype.split(sep)` for a one-character separator. -/
def splitCharAux (sep : Char) : List Char → List Char → List String
  | [], cur => [String.mk cur.reverse]
  | c :: rest, cur =>
      if c = sep then String.mk cur.reverse :: splitCharAux sep rest []
      else splitCharAux sep rest (c :: cur)

/-- `diff.split('\n')`. -/
def jsSplitLines (s : String) : List String :=
  splitCharAux '\n' s.data []

/-- The initial loop state of `toGithubSuggestions`. -/
def initialDiffState : DiffState :=
  { currentFile := none, newLine := 0, pendingStart := none
    pendingBody := [], suggestions := [] }

/-- `toGithubSuggestions` from `packages/domain/src/diff.ts`.  The
`maxSuggestions` cap is a natural number, as at its call sites (`5` by
default, `3` in the worker); `slice(0, max)` is `take`. -/
def toGithubSuggestions (diff : String) (maxSuggestions : ℕ) :
    List GithubSuggestion :=
  let final := flushState ((jsSplitLines diff).foldl diffLineStep initialDiffState)
  final.suggestions.take maxSuggestions

/-- `NormalizedFinding` as built by `toNormalizedFinding` in the worker
orchestrator. -/
structure NormalizedFinding where
  title : String
  severity : Severity
  confidence : ℚ
  file : String
  startLine : ℤ
  endLine : ℤ
  issueKey : String
  evidence : String
  suggestedFix : Option String
deriving DecidableEq

/-- `normalizeSeverity` from the worker orchestrator: the four literal
severities pass through, anything else becomes `medium`. -/
def normalizeSeverity : Option Json → Severity
  | some (Json.jstr s) =>
      if s = "critical" then .critical
      else if s = "high" then .high
      else if s = "medium" then .medium
      else if s = "low" then .low
      else .medium
  | _ => .medium

/-- `clamp01` from the worker orchestrator (`Math.max(0, Math.min(1, v))`;
the `NaN` branch is unreachable for numbers taken from `JSON.parse`
output). -/
def clamp01 (v : ℚ) : ℚ := qMax 0 (qMin 1 v)

/-- `title.slice(0, 64)`. -/
def sliceTo64 (s : String) : String := String.mk (s.data.take 64)

/-- The `title` local of `toNormalizedFinding`: the trimmed `title`
property when it is a string, the empty string otherwise. -/
def candTitle (fields : List (String × Json)) : String :=
  match jsonGet fields "title" with
  | some (Json.jstr s) => jsTrim s
  | _ => ""

/-- The `file` local of `toNormalizedFinding`. -/
def candFile (fields : List (String × Json)) : String :=
  match jsonGet fields "file" with
  | some (Json.jstr s) => jsTrim s
  | _ => ""

/-- The `confidence` local of `toNormalizedFinding` (before clamping). -/
def candConfidence (fields : List (String × Json)) : ℚ :=
  match jsonGet fields "confidence" with
  | some (Json.jnum n) => n
  | _ => 0

/-- The `startLine` local of `toNormalizedFinding`. -/
def candStartLine (fields : List (String × Json)) : ℤ :=
  match jsonGet fields "startLine" with
  | some (Json.jnum n) => max 1 (Rat.floor n)
  | _ => 1

/-- The `endLine` local of `toNormalizedFinding`. -/
def candEndLine (fields : List (String × Json)) : ℤ :=
  match jsonGet fields "endLine" with
  | some (Json.jnum n) => max (candStartLine fields) (Rat.floor n)
  | _ => candStartLine fields

/-- The `issueKey` local of `toNormalizedFinding`: the trimmed `issueKey`
property when it is a string, otherwise the first 64 characters of the
(trimmed) title. -/
def candIssueKey (fields : List (String × Json)) : String :=
  match jsonGet fields "issueKey" with
  | some (Json.jstr s) => jsTrim s
  | _ => sliceTo64 (candTitle fields)

/-- The body of `toNormalizedFinding` on an object's field list. -/
def toNormalizedFindingFields (fields : List (String × Json)) :
    Option NormalizedFinding :=
  if candTitle fields = "" ∨ candFile fields = "" ∨ candIssueKey fields = ""
  then none
  else some
    { title := candTitle fields
      severity := normalizeSeverity (jsonGet fields "severity")
      confidence := clamp01 (candConfidence fields)
      file := candFile fields
      startLine := candStartLine fields
      endLine := candEndLine fields
      issueKey := candIssueKey fields
      evidence := match jsonGet fields "evidence" with
        | some (Json.jstr s) => s
        | _ => ""
      suggestedFix := match jsonGet fields "suggestedFix" with
        | some (Json.jstr s) => some s
        | _ => none }

/-- `toNormalizedFinding` from the worker orchestrator, on the parsed
candidate value.  Arrays have `typeof === 'object'` but carry none of the
named properties; every other non-object candidate is rejected
outright. -/
def toNormalizedFinding (candidate : Json) : Option NormalizedFinding :=
  match candidate with
  | Json.jobj fields => toNormalizedFindingFields fields
  | Json.jarr _ => toNormalizedFindingFields []
  | _ => none

/-- `parseNormalizedFindings` from the worker orchestrator, from the
`parseJsonBlob` result onwards (`none` models a blob that did not parse
at all): require a `findings` array, map `toNormalizedFinding` over it
and keep the non-null results. -/
def parseNormalizedFindingsFromJson (parsed : Option Json) :
    List NormalizedFinding :=
  match parsed with
  | some (Json.jobj fields) =>
      match jsonGet fields "findings" with
      | some (Json.jarr l) => l.filterMap toNormalizedFinding
      | _ => []
  | _ => []

/-- `String(v)` for a JSON value (JavaScript string conversion); array
elements that are `null` render as the empty string, per
`Array.prototype.join`. -/
def jsToString (env : JsEnv) : Json → String
  | .jnull => "null"
  | .jbool b => cond b "true" "false"
  | .jnum n => env.numToStr n
  | .jstr s => s
  | .jarr l => joinSep "," (l.attach.map (fun e =>
      match e with
      | ⟨Json.jnull, _⟩ => ""
      | ⟨v, _⟩ => jsToString env v))
  | .jobj _ => "[object Object]"

/-- The repository reference stored with a run. -/
structure RepoRef where
  owner : String
  name : String
  installationId : ℤ
deriving DecidableEq

/-- The result of `store.getRunWithRepo`. -/
structure RunWithRepo where
  repo : RepoRef
  prNumber : ℤ
deriving DecidableEq

/-- The finding record the store returns for `explain_finding`. -/
structure StoredFinding where
  id : String
  title : String
  filePath : String
  startLine : ℤ
  endLine : ℤ
  evidence : List (String × Json)

/-- The store lookups `RunOrchestrator.explainFinding` performs. -/
structure ExplainDeps where
  getRunWithRepo : ℤ → Option RunWithRepo
  getFinding : ℤ → String → Option StoredFinding

/-- A comment posted through `github.createIssueComment`. -/
structure IssueComment where
  owner : String
  name : String
  installationId : ℤ
  prNumber : ℤ
  body : String

/-- `renderExplainComment` from `services/worker/src/report.ts`. -/
def renderExplainComment (findingId title filePath : String)
    (startLine endLine : ℤ) (evidence : String) : String :=
  joinSep "\n\n"
    ["### Explanation for " ++ findingId,
     "**" ++ title ++ "**",
     "Location: `" ++ filePath ++ ":" ++ toString startLine ++ "-"
       ++ toString endLine ++ "`",
     "Evidence: " ++ evidence]

/-- The `not found` comment body of `RunOrchestrator.explainFinding`. -/
def explainNotFoundBody (findingId : String) (runId : ℤ) : String :=
  "No finding found for id `" ++ findingId ++ "` in run " ++ toString runId
    ++ "."

/-- `String(finding.evidence.evidence ?? 'No evidence captured')`. -/
def explainEvidenceText (env : JsEnv) (ev : List (String × Json)) : String :=
  match jsonGet ev "evidence" with
  | none => "No evidence captured"
  | some Json.jnull => "No evidence captured"
  | some v => jsToString env v

/-- `RunOrchestrator.explainFinding` from the worker orchestrator,
modelled as the list of issue comments it posts.  The result is wrapped
in `Except` to record that no path of the handler throws. -/
def explainFinding (env : JsEnv) (deps : ExplainDeps) (runId : ℤ)
    (findingId : String) : Except String (List IssueComment) :=
  match deps.getRunWithRepo runId with
  | none => .ok []
  | some run =>
      match deps.getFinding runId findingId with
      | none =>
          .ok [⟨run.repo.owner, run.repo.name, run.repo.installationId,
                run.prNumber, explainNotFoundBody findingId runId⟩]
      | some finding =>
          .ok [⟨run.repo.owner, run.repo.name, run.repo.installationId,
                run.prNumber,
                renderExplainComment finding.id finding.title
                  finding.filePath finding.startLine finding.endLine
                  (explainEvidenceText env finding.evidence)⟩]

/-- `encodeJsonRpcRequest` from the app-server client, as the JSON tree
`JSON.stringify` serialises (a key whose value is `undefined` — `params`
left out — is omitted from the serialised object). -/
def encodeJsonRpcRequest (id : ℚ) (method : String) (params : Option Json) :
    Json :=
  Json.jobj ([("jsonrpc", Json.jstr "2.0"), ("id", Json.jnum id),
    ("method", Json.jstr method)] ++
    (match params with | some p => [("params", p)] | none => []))

/-- `parseJsonRpcMessage` from the app-server client, from the
`JSON.parse` result onwards (`JSON.parse` and `JSON.stringify` are
mutually inverse on JSON trees).  On success the raw object is returned
unchanged, as in the source. -/
def parseJsonRpcMessage (j : Json) : Except String Json :=
  match j with
  | Json.jobj fields =>
      if (match jsonGet fields "id" with
          | some (Json.jnum _) => true
          | _ => false)
         && ((jsonGet fields "result").isSome || (jsonGet fields "error").isSome)
      then .ok j
      else if (match jsonGet fields "method" with
               | some (Json.jstr _) => true
               | _ => false)
              && (jsonGet fields "params").isSome
      then .ok j
      else .error "Invalid JSON-RPC message shape"
  | Json.jarr _ => .error "Invalid JSON-RPC message shape"
  | _ => .error "Invalid JSON-RPC message payload type"

/-- The destination of a rejection delivered by `failAllPending`. -/
inductive RejectTarget where
  | request : ℤ → String → RejectTarget
  | waiter : String → RejectTarget
deriving DecidableEq

/-- One promise rejection delivered by `failAllPending`. -/
structure Rejection where
  target : RejectTarget
  message : String
deriving DecidableEq

/-- The bookkeeping state of `CodexAppServerClient` relevant to failure
handling: the pending-response table (request id and method), the
turn-waiter table (thread:turn keys) and the number of `spawn` calls
performed so far. -/
structure ClientState where
  pendingResponses : List (ℤ × String)
  turnWaiters : List String
  spawned : ℕ

/-- The error message built in the `exit` handler of
`CodexAppServerClient.start`. -/
def exitReason (code : Option ℤ) (signal : Option String) : String :=
  "codex app-server exited (code=" ++
    (match code with | some c => toString c | none => "null") ++
    ", signal=" ++
    (match signal with | some s => s | none => "null") ++ ")"

/-- `CodexAppServerClient.failAllPending`: reject every pending response
with the given reason, reject every turn waiter with its cancellation
message, and clear both tables. -/
def failAllPending (st : ClientState) (reason : String) :
    ClientState × List Rejection :=
  ({ st with pendingResponses := [], turnWaiters := [] },
   st.pendingResponses.map (fun p => ⟨.request p.1 p.2, reason⟩) ++
     st.turnWaiters.map
       (fun k => ⟨.waiter k, "Turn waiter canceled (" ++ k ++ ")"⟩))

/-- The `exit` handler installed by `CodexAppServerClient.start`: build
the exit reason and fail everything pending.  The handler performs no
`spawn`. -/
def onChildExit (st : ClientState) (code : Option ℤ)
    (signal : Option String) : ClientState × List Rejection :=
  failAllPending st (exitReason code signal)

theorem string_append_data (a b : String) : (a ++ b).data = a.data ++ b.data := by
  cases a; cases b; rfl

/-- A concrete environment (identity hash, trivial number formatting)
used to instantiate theorems at concrete inputs. -/
def envW : JsEnv := ⟨fun s => s, fun _ => ""⟩

/-- C8: `parseChatOpsCommand` maps `"/codex rerun"` to a rerun command
with scope `all`, maps `"/codex patch finding_42"` to a patch command
with finding id `finding_42`, and rejects a body with an embedded
newline such as `"/codex stop\nrm -rf /"`. -/
theorem chatops_command_scenarios :
    parseChatOpsCommand "/codex rerun" = some (ChatOpsCommand.rerun "all") ∧
    parseChatOpsCommand "/codex patch finding_42" =
      some (ChatOpsCommand.patch "finding_42") ∧
    parseChatOpsCommand "/codex stop\nrm -rf /" = none := by
  refine ⟨by decide, by decide, by decide⟩

/-- Lookup of a top-level property of a JSON-RPC message object. -/
def jsonRpcField (j : Json) (key : String) : Option Json :=
  match j with
  | Json.jobj fields => jsonGet fields key
  | _ => none

/-- C6: encoding a JSON-RPC request with `encodeJsonRpcRequest` and
parsing the resulting bytes back with `parseJsonRpcMessage` succeeds and
yields a message carrying the original method and params (serialisation
of the JSON tree and `JSON.parse` of the same bytes are mutually
inverse, so the round trip is stated on the tree). -/
theorem jsonrpc_roundtrip (id : ℚ) (method : String) (params : Json) :
    parseJsonRpcMessage (encodeJsonRpcRequest id method (some params)) =
      Except.ok (encodeJsonRpcRequest id method (some params)) ∧
    jsonRpcField (encodeJsonRpcRequest id method (some params)) "method" =
      some (Json.jstr method) ∧
    jsonRpcField (encodeJsonRpcRequest id method (some params)) "params" =
      some params ∧
    jsonRpcField (encodeJsonRpcRequest id method (some params)) "id" =
      some (Json.jnum id) :=
  ⟨rfl, rfl, rfl, rfl⟩

/-- C7: when the subprocess exits with a nonzero code or a signal, every
outstanding pending request and every outstanding turn waiter is
rejected with a descriptive error, both tables are emptied, and no
respawn is performed (the spawn count is unchanged). -/
theorem client_exit_fails_all (st : ClientState) (code : Option ℤ)
    (signal : Option String) (h : code ≠ some 0 ∨ signal ≠ none) :
    (onChildExit st code signal).1.pendingResponses = [] ∧
    (onChildExit st code signal).1.turnWaiters = [] ∧
    (onChildExit st code signal).1.spawned = st.spawned ∧
    (∀ p ∈ st.pendingResponses,
      Rejection.mk (RejectTarget.request p.1 p.2) (exitReason code signal) ∈
        (onChildExit st code signal).2) ∧
    (∀ k ∈ st.turnWaiters,
      Rejection.mk (RejectTarget.waiter k)
          ("Turn waiter canceled (" ++ k ++ ")") ∈
        (onChildExit st code signal).2) ∧
    exitReason code signal ≠ "" := by
  refine ⟨rfl, rfl, rfl, ?_, ?_, ?_⟩
  · intro p hp
    exact List.mem_append_left _ (List.mem_map_of_mem _ hp)
  · intro k hk
    exact List.mem_append_right _ (List.mem_map_of_mem _ hk)
  · intro hempty
    have hdata := congrArg String.data hempty
    rw [exitReason.eq_def] at hdata
    simp only [string_append_data] at hdata
    simp at hdata

/-- A client state with one pending request and one turn waiter. -/
def stW : ClientState := ⟨[(1, "initialize")], ["t1:u1"], 2⟩

theorem client_exit_fails_all_witness :
    ((some 1 : Option ℤ) ≠ some 0 ∨ (none : Option String) ≠ none) ∧
    (onChildExit stW (some 1) none).1.pendingResponses = [] ∧
    Rejection.mk (RejectTarget.request 1 "initialize")
        (exitReason (some 1) none) ∈ (onChildExit stW (some 1) none).2 ∧
    Rejection.mk (RejectTarget.waiter "t1:u1")
        ("Turn waiter canceled (" ++ "t1:u1" ++ ")") ∈
      (onChildExit stW (some 1) none).2 :=
  ⟨by decide,
   (client_exit_fails_all stW (some 1) none (by decide)).1,
   (client_exit_fails_all stW (some 1) none (by decide)).2.2.2.1
     (1, "initialize") (by decide),
   (client_exit_fails_all stW (some 1) none (by decide)).2.2.2.2.1
     "t1:u1" (by decide)⟩

/-- A store in which no run exists. -/
def depsNoRun : ExplainDeps := ⟨fun _ => none, fun _ _ => none⟩

/-- C5 counterexample: when the referenced run is missing, the
`explain_finding` handler posts no comment at all (it returns after the
run lookup), contradicting the claim that a "not found" comment is
posted whenever the run or the finding is missing. -/
theorem explain_missing_run_posts_nothing :
    depsNoRun.getRunWithRepo 7 = none ∧
    explainFinding envW depsNoRun 7 "finding_1" = Except.ok [] :=
  ⟨rfl, rfl⟩

/-- C5 amended: the handler never throws on a not-found condition; when
the run exists but the finding does not, a "not found" comment is posted
to the run's PR; when the run itself is missing, the handler returns
without posting anything. -/
theorem explain_finding_not_found (env : JsEnv) (deps : ExplainDeps)
    (runId : ℤ) (findingId : String) :
    (∃ cs, explainFinding env deps runId findingId = Except.ok cs) ∧
    (deps.getRunWithRepo runId = none →
      explainFinding env deps runId findingId = Except.ok []) ∧
    (∀ run, deps.getRunWithRepo runId = some run →
      deps.getFinding runId findingId = none →
      explainFinding env deps runId findingId =
        Except.ok [⟨run.repo.owner, run.repo.name, run.repo.installationId,
          run.prNumber, explainNotFoundBody findingId runId⟩]) := by
  refine ⟨?_, ?_, ?_⟩
  · unfold explainFinding
    cases hr : deps.getRunWithRepo runId with
    | none => exact ⟨[], rfl⟩
    | some run =>
        cases hf : deps.getFinding runId findingId with
        | none => exact ⟨_, rfl⟩
        | some f => exact ⟨_, rfl⟩
  · intro h
    simp only [explainFinding, h]
  · intro run hr hf
    simp only [explainFinding, hr, hf]

/-- A store with a run but no findings. -/
def depsRunOnly : ExplainDeps :=
  ⟨fun _ => some ⟨⟨"octo", "repo", 5⟩, 12⟩, fun _ _ => none⟩

theorem explain_finding_not_found_witness :
    explainFinding envW depsRunOnly 3 "finding_9" =
      Except.ok [⟨"octo", "repo", 5, 12, explainNotFoundBody "finding_9" 3⟩] :=
  (explain_finding_not_found envW depsRunOnly 3 "finding_9").2.2
    ⟨⟨"octo", "repo", 5⟩, 12⟩ rfl rfl

/-- C4 counterexample: a candidate that is missing its issue-key (but
has a title and a file) is retained, not dropped — the issue-key falls
back to the first 64 characters of the title. -/
theorem normalize_missing_issue_key_retained :
    parseNormalizedFindingsFromJson (some (Json.jobj [("findings",
        Json.jarr [Json.jobj [("title", Json.jstr "Bug"),
          ("file", Json.jstr "a.ts")]])])) =
      [{ title := "Bug", severity := .medium, confidence := 0,
         file := "a.ts", startLine := 1, endLine := 1, issueKey := "Bug",
         evidence := "", suggestedFix := none }] := by decide

/-- C4 amended: a candidate missing its title or its file is dropped (a
missing issue-key is instead defaulted from the title, so it only causes
a drop when the title is missing too); every retained finding has its
confidence clamped to `[0, 1]`, its start line floored and forced `≥ 1`,
and its end line floored and forced `≥` the start line. -/
theorem normalized_finding_sanitization (fields : List (String × Json)) :
    (candTitle fields = "" ∨ candFile fields = "" →
      toNormalizedFinding (Json.jobj fields) = none) ∧
    (∀ nf, toNormalizedFinding (Json.jobj fields) = some nf →
      nf.confidence = clamp01 (candConfidence fields) ∧
      0 ≤ nf.confidence ∧ nf.confidence ≤ 1 ∧
      nf.startLine = candStartLine fields ∧
      nf.endLine = candEndLine fields ∧
      1 ≤ nf.startLine ∧ nf.startLine ≤ nf.endLine ∧
      nf.title ≠ "" ∧ nf.file ≠ "" ∧ nf.issueKey ≠ "") := by
  constructor
  · intro h
    simp only [toNormalizedFinding, toNormalizedFindingFields]
    rw [if_pos]
    rcases h with h | h
    · exact Or.inl h
    · exact Or.inr (Or.inl h)
  · intro nf hnf
    simp only [toNormalizedFinding, toNormalizedFindingFields] at hnf
    by_cases hcond : candTitle fields = "" ∨ candFile fields = "" ∨
        candIssueKey fields = ""
    · rw [if_pos hcond] at hnf
      exact absurd hnf (by simp)
    · rw [if_neg hcond] at hnf
      injection hnf with hrec
      push_neg at hcond
      obtain ⟨htitle, hfile, hkey⟩ := hcond
      subst hrec
      refine ⟨rfl, ?_, ?_, rfl, ?_, ?_, ?_, htitle, hfile, hkey⟩
      · rw [clamp01, qMax_eq]
        exact le_max_left 0 _
      · rw [clamp01, qMax_eq, qMin_eq]
        exact max_le zero_le_one (min_le_left 1 _)
      · rfl
      · unfold candStartLine
        split
        · exact le_max_left 1 _
        · exact le_refl 1
      · show candStartLine fields ≤ candEndLine fields
        unfold candEndLine
        split
        · exact le_max_left _ _
        · exact le_refl _

/-- The field list of a retained candidate, used to instantiate the C4
theorem. -/
def fieldsW : List (String × Json) :=
  [("title", Json.jstr "T"), ("file", Json.jstr "f"),
   ("confidence", Json.jnum 2)]

/-- The normalized finding the worker produces from `fieldsW`. -/
def nfW : NormalizedFinding := ⟨"T", .medium, 1, "f", 1, 1, "T", "", none⟩

theorem normalized_finding_sanitization_witness :
    nfW.confidence = clamp01 (candConfidence fieldsW) ∧
    0 ≤ nfW.confidence ∧ nfW.confidence ≤ 1 ∧
    nfW.startLine = candStartLine fieldsW ∧
    nfW.endLine = candEndLine fieldsW ∧
    1 ≤ nfW.startLine ∧ nfW.startLine ≤ nfW.endLine ∧
    nfW.title ≠ "" ∧ nfW.file ≠ "" ∧ nfW.issueKey ≠ "" :=
  (normalized_finding_sanitization fieldsW).2 nfW (by decide)

/-- A well-formed suggestion as emitted by `flush`: a single-line anchor
at line `≥ 1` whose body joins the (at least one) accumulated added
lines. -/
def goodSuggestion (s : GithubSuggestion) : Prop :=
  s.endLine = s.startLine ∧ 1 ≤ s.startLine ∧
    ∃ ls, ls ≠ [] ∧ s.body = joinSep "\n" ls

/-- Invariant of the diff loop: all emitted suggestions are well formed
and any pending anchor is `≥ 1`. -/
def diffInv (st : DiffState) : Prop :=
  (∀ s ∈ st.suggestions, goodSuggestion s) ∧
    (∀ p, st.pendingStart = some p → 1 ≤ p)

theorem flushState_inv (st : DiffState) (h : diffInv st) :
    diffInv (flushState st) := by
  obtain ⟨hs, hp⟩ := h
  unfold flushState
  split
  · rename_i file p b brest hfile hpend hbody
    split
    · exact ⟨hs, by intro q hq; simp at hq⟩
    · refine ⟨?_, by intro q hq; simp at hq⟩
      intro s hmem
      rcases List.mem_append.mp hmem with hold | hnew
      · exact hs s hold
      · rcases List.mem_singleton.mp hnew with rfl
        exact ⟨rfl, hp p hpend, b :: brest, by simp, rfl⟩
  · exact ⟨hs, by intro q hq; simp at hq⟩

theorem diffLineStep_inv (st : DiffState) (line : String) (h : diffInv st) :
    diffInv (diffLineStep st line) := by
  obtain ⟨hs, hp⟩ := h
  unfold diffLineStep
  split
  · rename_i name hname
    obtain ⟨hs', hp'⟩ := flushState_inv st ⟨hs, hp⟩
    exact ⟨hs', hp'⟩
  · split
    · rename_i n hn
      obtain ⟨hs', hp'⟩ := flushState_inv st ⟨hs, hp⟩
      exact ⟨hs', hp'⟩
    · split
      · exact ⟨hs, hp⟩
      · split
        · split
          · rename_i hnone
            refine ⟨hs, ?_⟩
            intro p hpeq
            simp only [Option.some.injEq] at hpeq
            rw [← hpeq]
            exact le_max_left 1 _
          · exact ⟨hs, hp⟩
        · split
          · split
            · rename_i hnone
              refine ⟨hs, ?_⟩
              intro p hpeq
              simp only [Option.some.injEq] at hpeq
              rw [← hpeq]
              exact le_max_left 1 _
            · exact ⟨hs, hp⟩
          · obtain ⟨hs', hp'⟩ := flushState_inv st ⟨hs, hp⟩
            split
            · exact ⟨hs', hp'⟩
            · exact ⟨hs', hp'⟩

theorem foldl_diffInv (lines : List String) (st : DiffState)
    (h : diffInv st) : diffInv (lines.foldl diffLineStep st) := by
  induction lines generalizing st with
  | nil => exact h
  | cons l ls ih => exact ih _ (diffLineStep_inv st l h)

/-- C10 counterexample: an added line with empty content produces a
suggestion whose body is the empty string, so suggestion bodies are not
always non-empty. -/
theorem diff_suggestion_empty_body :
    toGithubSuggestions "diff --git a/f b/f\n@@ -1 +1 @@\n+" 5 =
      [⟨"f", 1, 1, ""⟩] := by decide

/-- C10 amended: every suggestion returned by `toGithubSuggestions` has
`endLine = startLine` with `startLine ≥ 1`, and its body is the
newline-join of at least one accumulated added line (so it can be the
empty string exactly when every added line in the block was blank); the
returned list has at most `maxSuggestions` elements. -/
theorem diff_suggestion_invariants (diff : String) (maxSuggestions : ℕ) :
    (toGithubSuggestions diff maxSuggestions).length ≤ maxSuggestions ∧
    ∀ s ∈ toGithubSuggestions diff maxSuggestions,
      s.endLine = s.startLine ∧ 1 ≤ s.startLine ∧
      ∃ ls, ls ≠ [] ∧ s.body = joinSep "\n" ls := by
  constructor
  · exact List.length_take_le _ _
  · intro s hmem
    have hsub : s ∈ (flushState ((jsSplitLines diff).foldl diffLineStep
        initialDiffState)).suggestions := List.mem_of_mem_take hmem
    have hinv : diffInv (flushState ((jsSplitLines diff).foldl diffLineStep
        initialDiffState)) := by
      apply flushState_inv
      apply foldl_diffInv
      exact ⟨by intro t ht; simp [initialDiffState] at ht,
             by intro p hp; simp [initialDiffState] at hp⟩
    exact hinv.1 s hsub

theorem diff_suggestion_invariants_witness :
    (toGithubSuggestions "diff --git a/f b/f\n@@ -3 +3,2 @@\n+a\n+b" 5).length ≤ 5 ∧
    (GithubSuggestion.mk "f" 2 2 "a\nb").endLine =
      (GithubSuggestion.mk "f" 2 2 "a\nb").startLine ∧
    1 ≤ (GithubSuggestion.mk "f" 2 2 "a\nb").startLine ∧
    ∃ ls, ls ≠ [] ∧ (GithubSuggestion.mk "f" 2 2 "a\nb").body = joinSep "\n" ls :=
  ⟨(diff_suggestion_invariants "diff --git a/f b/f\n@@ -3 +3,2 @@\n+a\n+b" 5).1,
   (diff_suggestion_invariants "diff --git a/f b/f\n@@ -3 +3,2 @@\n+a\n+b" 5).2
     ⟨"f", 2, 2, "a\nb"⟩ (by decide)⟩

/-- The classification of one diff line, with the data the loop extracts
from it: a new file header (with the new current file), a new hunk header
(with the new-file start line), a `+++`/`---` file-metadata line, an
added line (with its content, the leading marker stripped), a removed
line, an unchanged context line, or anything else. -/
inductive DiffLineKind where
  | fileHeader : String → DiffLineKind
  | hunkHeader : ℕ → DiffLineKind
  | fileMeta : DiffLineKind
  | added : String → DiffLineKind
  | removed : DiffLineKind
  | context : DiffLineKind
  | other : DiffLineKind

/-- Classify a diff line, with the priority order of the loop. -/
def classifyDiffLine (line : String) : DiffLineKind :=
  match matchFileHeader line with
  | some path => .fileHeader path
  | none =>
      match matchHunkHeader line with
      | some n => .hunkHeader n
      | none =>
          if jsStartsWith line "+++" || jsStartsWith line "---" then .fileMeta
          else if jsStartsWith line "+" then
            .added (String.mk (line.data.drop 1))
          else if jsStartsWith line "-" then .removed
          else if jsStartsWith line " " then .context
          else .other

/-- Flush as the specification describes it: the pending block is
emitted when it is non-empty (its body has accumulated at least one
added line and it is anchored inside a current file), and the pending
state is always reset. -/
def specFlush (st : DiffState) : DiffState :=
  match st.pendingBody with
  | [] => { st with pendingStart := none, pendingBody := [] }
  | b :: brest =>
      match st.currentFile, st.pendingStart with
      | some file, some p =>
          { st with
            suggestions := st.suggestions ++
              [⟨file, p, p, joinSep "\n" (b :: brest)⟩]
            pendingStart := none, pendingBody := [] }
      | _, _ => { st with pendingStart := none, pendingBody := [] }

/-- One loop step as the specification describes it: flush on a new file
header, a new hunk header, an unchanged context line or any other
non-diff line; accumulate consecutive added/removed lines into one
pending block anchored at the line immediately preceding the first
affected line (floored at 1); only added-line content reaches the body,
removed lines only anchor. -/
def specStep (st : DiffState) (k : DiffLineKind) : DiffState :=
  match k with
  | .fileHeader path =>
      let st' := specFlush st
      { st' with currentFile := some path }
  | .hunkHeader n =>
      let st' := specFlush st
      { st' with newLine := (n : ℤ) }
  | .fileMeta => st
  | .added content =>
      let anchor := match st.pendingStart with
        | none => some (max 1 (st.newLine - 1))
        | some p => some p
      { st with pendingStart := anchor
                pendingBody := st.pendingBody ++ [content]
                newLine := st.newLine + 1 }
  | .removed =>
      { st with pendingStart := match st.pendingStart with
          | none => some (max 1 (st.newLine - 1))
          | some p => some p }
  | .context =>
      let st' := specFlush st
      { st' with newLine := st'.newLine + 1 }
  | .other => specFlush st

/-- The suggestion extraction as described by the specification:
classify each line and fold the specification step over the lines. -/
def toGithubSuggestionsSpec (diff : String) (maxSuggestions : ℕ) :
    List GithubSuggestion :=
  (specFlush ((jsSplitLines diff).foldl
      (fun st line => specStep st (classifyDiffLine line))
      initialDiffState)).suggestions.take maxSuggestions

theorem fileHeaderScan_ne_empty (l : List Char) (path : String)
    (h : fileHeaderScan l = some path) : path ≠ "" := by
  induction l with
  | nil => simp [fileHeaderScan] at h
  | cons c rest ih =>
      rw [fileHeaderScan] at h
      by_cases hc : (listIsPrefix (" b/").data (c :: rest) &&
          !(rest.drop 2).isEmpty) = true
      · rw [if_pos hc] at h
        simp only [Bool.and_eq_true, Bool.not_eq_true'] at hc
        obtain ⟨-, hne⟩ := hc
        injection h with hpath
        intro hcontra
        rw [← hpath] at hcontra
        have hnil : (rest.drop 2) = [] := by
          have := congrArg String.data hcontra
          simpa using this
        rw [hnil] at hne
        simp at hne
      · rw [if_neg hc] at h
        exact ih h

theorem matchFileHeader_ne_empty (line : String) (path : String)
    (h : matchFileHeader line = some path) : path ≠ "" := by
  unfold matchFileHeader at h
  rcases hstrip : stripLit ("diff --git a/").data line.data with _ | rest
  · rw [hstrip] at h; simp at h
  · rw [hstrip] at h
    rcases rest with _ | ⟨c, rest'⟩
    · simp at h
    · exact fileHeaderScan_ne_empty rest' path h

theorem flushState_currentFile (st : DiffState) :
    (flushState st).currentFile = st.currentFile := by
  unfold flushState
  split
  · split <;> rfl
  · rfl

theorem flushState_eq_specFlush (st : DiffState)
    (h : st.currentFile ≠ some "") : flushState st = specFlush st := by
  obtain ⟨cf, nl, ps, pb, sug⟩ := st
  rcases pb with _ | ⟨b, brest⟩
  · rcases cf with _ | file
    · rfl
    · rcases ps with _ | p
      · rfl
      · rfl
  · rcases cf with _ | file
    · rfl
    · rcases ps with _ | p
      · rfl
      · have hf : ¬ (file = "") := by simpa using h
        simp [flushState, specFlush, hf]

theorem diffLineStep_file_inv (st : DiffState) (line : String)
    (h : st.currentFile ≠ some "") :
    (diffLineStep st line).currentFile ≠ some "" := by
  unfold diffLineStep
  split
  · rename_i name hname
    intro hc
    simp only [Option.some.injEq] at hc
    exact matchFileHeader_ne_empty line name hname hc
  · split
    · simpa [flushState_currentFile] using h
    · split
      · exact h
      · split
        · split <;> exact h
        · split
          · split <;> exact h
          · split
            · simpa [flushState_currentFile] using h
            · simpa [flushState_currentFile] using h

theorem diffLineStep_eq_specStep (st : DiffState) (line : String)
    (h : st.currentFile ≠ some "") :
    diffLineStep st line = specStep st (classifyDiffLine line) := by
  obtain ⟨cf, nl, ps, pb, sug⟩ := st
  unfold diffLineStep classifyDiffLine specStep
  cases hfh : matchFileHeader line with
  | some name =>
      rw [flushState_eq_specFlush _ h]
  | none =>
      cases hhh : matchHunkHeader line with
      | some n =>
          rw [flushState_eq_specFlush _ h]
      | none =>
          cases hmeta : (jsStartsWith line "+++" || jsStartsWith line "---") with
          | true => simp
          | false =>
              simp only [Bool.false_eq_true, if_false]
              cases hplus : jsStartsWith line "+" with
              | true =>
                  rcases ps with _ | p <;> simp
              | false =>
                  simp only [Bool.false_eq_true, if_false]
                  cases hminus : jsStartsWith line "-" with
                  | true =>
                      rcases ps with _ | p <;> simp
                  | false =>
                      simp only [Bool.false_eq_true, if_false]
                      cases hctx : jsStartsWith line " " with
                      | true =>
                          simp only [if_pos]
                          rw [flushState_eq_specFlush _ h]
                      | false =>
                          simp only [Bool.false_eq_true, if_false]
                          rw [flushState_eq_specFlush _ h]

theorem foldl_diffLineStep_eq (lines : List String) (st : DiffState)
    (h : st.currentFile ≠ some "") :
    lines.foldl diffLineStep st =
      lines.foldl (fun s line => specStep s (classifyDiffLine line)) st ∧
    (lines.foldl diffLineStep st).currentFile ≠ some "" := by
  induction lines generalizing st with
  | nil => exact ⟨rfl, h⟩
  | cons l ls ih =>
      have hstep := diffLineStep_eq_specStep st l h
      have hinv := diffLineStep_file_inv st l h
      obtain ⟨he, hi⟩ := ih (diffLineStep st l) hinv
      refine ⟨?_, by simpa [List.foldl_cons] using hi⟩
      simp only [List.foldl_cons]
      rw [← hstep]
      exact he

/-- C9: `toGithubSuggestions` computes exactly what the specification
describes: consecutive added/removed lines accumulate into one pending
block anchored at `max(1, newLine - 1)` at the first affected line; the
(non-empty) pending block is flushed on a new file header, a new hunk
header, or an unchanged context line (and on any other non-diff line);
only `+`-line content (marker stripped) reaches the body, `-` lines only
anchor. -/
theorem diff_suggestions_match_spec (diff : String) (maxSuggestions : ℕ) :
    toGithubSuggestions diff maxSuggestions =
      toGithubSuggestionsSpec diff maxSuggestions := by
  unfold toGithubSuggestions toGithubSuggestionsSpec
  have h0 : (initialDiffState).currentFile ≠ some "" := by
    simp [initialDiffState]
  obtain ⟨he, hi⟩ := foldl_diffLineStep_eq (jsSplitLines diff)
    initialDiffState h0
  rw [he] at hi ⊢
  rw [flushState_eq_specFlush _ hi]

theorem mkRat_len_eq (n : ℕ) : (mkRat (n : ℤ) 1 : ℚ) = (n : ℚ) := by
  rw [Rat.mkRat_eq_div]
  push_cast
  norm_num

theorem mkRat_half_eq : (mkRat 1 2 : ℚ) = 1 / 2 := by
  rw [Rat.mkRat_eq_div]
  norm_num

/-- C3: `rankScore` equals
`severityWeight(severity)·10 + clamp01(confidence)·8 +
|supportingRoles|·5 + roleBonus(role)` rounded to four decimal places
(half away from zero for these non-negative scores), with the weight and
bonus tables as specified, and it is a pure function of
`(severity, confidence, |supportingRoles|, role)`. -/
theorem rankScore_formula (x : ScoreInput) :
    rankScore x =
      (⌊(severityWeight x.severity * 10 + clampConfidence x.confidence * 8 +
          (x.supportingRoles.length : ℚ) * 5 + roleBonus x.role) * 10000 +
          1 / 2⌋ : ℚ) / 10000 ∧
    severityWeight .low = 1 ∧ severityWeight .medium = 2 ∧
    severityWeight .high = 3 ∧ severityWeight .critical = 4 ∧
    roleBonus .correctness = 0.6 ∧ roleBonus .security = 0.9 ∧
    roleBonus .maintainability = 0.5 ∧
    (∀ y : ScoreInput, x.severity = y.severity → x.confidence = y.confidence →
      x.supportingRoles.length = y.supportingRoles.length → x.role = y.role →
      rankScore x = rankScore y) := by
  refine ⟨?_, rfl, rfl, rfl, rfl, ?_, ?_, ?_, ?_⟩
  · unfold rankScore roundTo4
    rw [Rat.divInt_eq_div, ratFloor_eq]
    simp only [qAdd_eq, qMul_eq]
    rw [mkRat_len_eq, mkRat_half_eq]
    norm_num
  · rw [show roleBonus .correctness = mkRat 6 10 from rfl, Rat.mkRat_eq_div]
    norm_num
  · rw [show roleBonus .security = mkRat 9 10 from rfl, Rat.mkRat_eq_div]
    norm_num
  · rw [show roleBonus .maintainability = mkRat 5 10 from rfl, Rat.mkRat_eq_div]
    norm_num
  · intro y h1 h2 h3 h4
    unfold rankScore
    rw [h1, h2, h3, h4]

theorem rankScore_formula_witness :
    rankScore ⟨.critical, some 1, [.security], .security⟩ =
      rankScore ⟨.critical, some 1, [.maintainability], .security⟩ :=
  (rankScore_formula ⟨.critical, some 1, [.security], .security⟩).2.2.2.2.2.2.2.2
    ⟨.critical, some 1, [.maintainability], .security⟩ rfl rfl rfl rfl

/-- The group of findings sharing a dedupe key. -/
def keyGroup (env : JsEnv) (key : String) (findings : List Finding) :
    List Finding :=
  findings.filter (fun f => groupKey env f == key)

theorem mapLookup_mapSet (m : List (String × RankedFinding)) (k : String)
    (v : RankedFinding) (k' : String) :
    mapLookup (mapSet m k v) k' =
      if k = k' then some v else mapLookup m k' := by
  induction m with
  | nil =>
      by_cases h : k = k' <;> simp [mapSet, mapLookup, h]
  | cons e rest ih =>
      obtain ⟨k₀, v₀⟩ := e
      by_cases h : k₀ = k
      · subst h
        by_cases h' : k₀ = k' <;> simp [mapSet, mapLookup, h']
      · by_cases h' : k₀ = k'
        · subst h'
          have hk : ¬ k = k₀ := fun hc => h hc.symm
          simp [mapSet, mapLookup, h, hk]
        · simp [mapSet, mapLookup, h, h', ih]

theorem keyGroup_nil (env : JsEnv) (key : String) :
    keyGroup env key [] = [] := rfl

theorem keyGroup_cons (env : JsEnv) (key : String) (f : Finding)
    (l : List Finding) :
    keyGroup env key (f :: l) =
      if groupKey env f = key then f :: keyGroup env key l
      else keyGroup env key l := by
  by_cases h : groupKey env f = key <;>
    simp [keyGroup, List.filter_cons, h]

/-- The heart of `dedupeFindings`: after folding the loop over the
findings, the record stored at a key merges the key's group onto
whatever the map already held for that key (the group's first finding
seeding a fresh record when the key was absent). -/
theorem dedupe_lookup (env : JsEnv) (l : List Finding)
    (m : List (String × RankedFinding)) (k : String) :
    mapLookup (l.foldl (dedupeStep env) m) k =
      match mapLookup m k, keyGroup env k l with
      | some r, g => some (g.foldl mergeRecord r)
      | none, [] => none
      | none, g₀ :: gs => some (gs.foldl mergeRecord (initialRecord k g₀)) := by
  induction l generalizing m with
  | nil =>
      cases h : mapLookup m k <;> simp [h, keyGroup_nil]
  | cons f l' ih =>
      simp only [List.foldl_cons]
      rw [ih (dedupeStep env m f)]
      rw [keyGroup_cons]
      by_cases hk : groupKey env f = k
      · rw [if_pos hk]
        cases hm : mapLookup m k with
        | none =>
            have hstep : dedupeStep env m f = mapSet m k (initialRecord k f) := by
              simp only [dedupeStep, hk, hm]
            rw [hstep, mapLookup_mapSet, if_pos rfl]
        | some r =>
            have hstep : dedupeStep env m f = mapSet m k (mergeRecord r f) := by
              simp only [dedupeStep, hk, hm]
            rw [hstep, mapLookup_mapSet, if_pos rfl]
            rfl
      · rw [if_neg hk]
        have hstep : mapLookup (dedupeStep env m f) k = mapLookup m k := by
          cases hgk : mapLookup m (groupKey env f) with
          | none =>
              simp only [dedupeStep, hgk, mapLookup_mapSet]
              rw [if_neg hk]
          | some cur =>
              simp only [dedupeStep, hgk, mapLookup_mapSet]
              rw [if_neg hk]
        rw [hstep]


theorem mapLookup_eq_none_iff (m : List (String × RankedFinding))
    (k : String) : mapLookup m k = none ↔ k ∉ m.map Prod.fst := by
  induction m with
  | nil => simp [mapLookup]
  | cons e rest ih =>
      obtain ⟨k₀, v⟩ := e
      by_cases h : k₀ = k
      · subst h
        simp [mapLookup]
      · simp only [mapLookup, if_neg h, List.map_cons, List.mem_cons]
        rw [ih]
        constructor
        · intro hnk hor
          rcases hor with he | hm
          · exact h he.symm
          · exact hnk hm
        · intro hall hm
          exact hall (Or.inr hm)

theorem mapSet_keys (m : List (String × RankedFinding)) (k : String)
    (v : RankedFinding) :
    (mapSet m k v).map Prod.fst =
      if (mapLookup m k).isNone then m.map Prod.fst ++ [k]
      else m.map Prod.fst := by
  induction m with
  | nil => simp [mapSet, mapLookup]
  | cons e rest ih =>
      obtain ⟨k₀, v₀⟩ := e
      by_cases h : k₀ = k
      · subst h
        simp [mapSet, mapLookup]
      · simp only [mapSet, mapLookup, if_neg h, List.map_cons]
        rw [ih]
        cases hrest : (mapLookup rest k).isNone <;> simp

theorem mapLookup_mem (m : List (String × RankedFinding)) (k : String)
    (r : RankedFinding) (h : mapLookup m k = some r) : (k, r) ∈ m := by
  induction m with
  | nil => simp [mapLookup] at h
  | cons e rest ih =>
      obtain ⟨k₀, v⟩ := e
      by_cases hk : k₀ = k
      · subst hk
        simp only [mapLookup, if_pos rfl] at h
        injection h with h
        subst h
        exact List.mem_cons_self _ _
      · simp only [mapLookup, if_neg hk] at h
        exact List.mem_cons_of_mem _ (ih h)

theorem mem_mapLookup (m : List (String × RankedFinding))
    (hnd : (m.map Prod.fst).Nodup) (k : String) (r : RankedFinding)
    (h : (k, r) ∈ m) : mapLookup m k = some r := by
  induction m with
  | nil => simp at h
  | cons e rest ih =>
      obtain ⟨k₀, v⟩ := e
      simp only [List.map_cons, List.nodup_cons] at hnd
      rcases List.mem_cons.mp h with heq | hmem
      · injection heq with h1 h2
        subst h1; subst h2
        simp [mapLookup]
      · have hk : k₀ ≠ k := by
          intro hc
          subst hc
          exact hnd.1 (List.mem_map.mpr ⟨(k₀, r), hmem, rfl⟩)
        simp only [mapLookup, if_neg hk]
        exact ih hnd.2 hmem

/-- The structural invariant of the `grouped` map: each record carries
its own key in `dedupeKey`, and the keys are pairwise distinct. -/
def dedupeInv (m : List (String × RankedFinding)) : Prop :=
  (∀ e ∈ m, (e : String × RankedFinding).2.dedupeKey = e.1) ∧
    (m.map Prod.fst).Nodup

theorem mem_mapSet (m : List (String × RankedFinding)) (k : String)
    (v : RankedFinding) (e : String × RankedFinding)
    (h : e ∈ mapSet m k v) : e = (k, v) ∨ e ∈ m := by
  induction m with
  | nil => simpa [mapSet] using h
  | cons e₀ rest ih =>
      obtain ⟨k₀, v₀⟩ := e₀
      by_cases hk : k₀ = k
      · subst hk
        simp only [mapSet, if_pos rfl] at h
        rcases List.mem_cons.mp h with heq | hmem
        · exact Or.inl heq
        · exact Or.inr (List.mem_cons_of_mem _ hmem)
      · simp only [mapSet, if_neg hk] at h
        rcases List.mem_cons.mp h with heq | hmem
        · exact Or.inr (heq ▸ List.mem_cons_self _ _)
        · rcases ih hmem with h1 | h2
          · exact Or.inl h1
          · exact Or.inr (List.mem_cons_of_mem _ h2)

theorem mergeRecord_dedupeKey (r : RankedFinding) (f : Finding) :
    (mergeRecord r f).dedupeKey = r.dedupeKey := rfl

theorem initialRecord_dedupeKey (k : String) (f : Finding) :
    (initialRecord k f).dedupeKey = k := rfl

theorem mapSet_inv (m : List (String × RankedFinding)) (k : String)
    (v : RankedFinding) (h : dedupeInv m) (hv : v.dedupeKey = k) :
    dedupeInv (mapSet m k v) := by
  constructor
  · intro e he
    rcases mem_mapSet m k v e he with rfl | hmem
    · exact hv
    · exact h.1 e hmem
  · rw [mapSet_keys]
    cases hl : (mapLookup m k).isNone with
    | true =>
        rw [if_pos rfl]
        refine List.Nodup.append h.2 (List.nodup_singleton k) ?_
        intro a ha hb
        rcases List.mem_singleton.mp hb with rfl
        exact (mapLookup_eq_none_iff m a).mp
          (Option.isNone_iff_eq_none.mp hl) ha
    | false =>
        rw [if_neg (by simp)]
        exact h.2

theorem dedupeStep_inv (env : JsEnv) (m : List (String × RankedFinding))
    (f : Finding) (h : dedupeInv m) : dedupeInv (dedupeStep env m f) := by
  cases hl : mapLookup m (groupKey env f) with
  | none =>
      have hi : dedupeStep env m f =
          mapSet m (groupKey env f) (initialRecord (groupKey env f) f) := by
        simp only [dedupeStep, hl]
      rw [hi]
      exact mapSet_inv m _ _ h rfl
  | some cur =>
      have hcur : cur.dedupeKey = groupKey env f :=
        h.1 (groupKey env f, cur) (mapLookup_mem m _ cur hl)
      have hi : dedupeStep env m f =
          mapSet m (groupKey env f) (mergeRecord cur f) := by
        simp only [dedupeStep, hl]
      rw [hi]
      exact mapSet_inv m _ _ h (by rw [mergeRecord_dedupeKey, hcur])

theorem foldl_dedupe_inv (env : JsEnv) (l : List Finding)
    (m : List (String × RankedFinding)) (h : dedupeInv m) :
    dedupeInv (l.foldl (dedupeStep env) m) := by
  induction l generalizing m with
  | nil => exact h
  | cons f l' ih => exact ih _ (dedupeStep_inv env m f h)

theorem values_countP (m : List (String × RankedFinding))
    (h : dedupeInv m) (key : String) :
    (m.map Prod.snd).countP (fun r => decide (r.dedupeKey = key)) =
      if (mapLookup m key).isNone then 0 else 1 := by
  induction m with
  | nil => simp [mapLookup]
  | cons e rest ih =>
      obtain ⟨k₀, v⟩ := e
      have hv : v.dedupeKey = k₀ := h.1 (k₀, v) (List.mem_cons_self _ _)
      have hnd := h.2
      simp only [List.map_cons, List.nodup_cons] at hnd
      have hrest : dedupeInv rest :=
        ⟨fun e he => h.1 e (List.mem_cons_of_mem _ he), hnd.2⟩
      have hk₀ : k₀ ∉ rest.map Prod.fst := hnd.1
      simp only [List.map_cons, List.countP_cons]
      rw [ih hrest]
      by_cases hkey : k₀ = key
      · subst hkey
        have hnone : (mapLookup rest k₀).isNone = true := by
          rw [Option.isNone_iff_eq_none]
          exact (mapLookup_eq_none_iff rest k₀).mpr hk₀
        rw [if_pos hnone]
        have hlk : mapLookup ((k₀, v) :: rest) k₀ = some v := by
          simp [mapLookup]
        rw [hlk]
        simp [hv]
      · have hlk : mapLookup ((k₀, v) :: rest) key = mapLookup rest key := by
          simp [mapLookup, hkey]
        rw [hlk]
        have hd : decide (v.dedupeKey = key) = false := by
          simp [hv, hkey]
        rw [hd]
        simp

theorem foldl_merge_dedupeKey (gs : List Finding) (r : RankedFinding) :
    (gs.foldl mergeRecord r).dedupeKey = r.dedupeKey := by
  induction gs generalizing r with
  | nil => rfl
  | cons g gs ih => rw [List.foldl_cons, ih, mergeRecord_dedupeKey]

theorem mergeRecord_severity (r : RankedFinding) (f : Finding) :
    (mergeRecord r f).severity = higherSeverity r.severity f.severity := rfl

theorem mergeRecord_confidence (r : RankedFinding) (f : Finding) :
    (mergeRecord r f).confidence =
      qMax r.confidence (clampConfidence f.confidence) := rfl

theorem mergeRecord_supportingRoles (r : RankedFinding) (f : Finding) :
    (mergeRecord r f).supportingRoles =
      jsSetDedup (r.supportingRoles ++ [f.role]) := rfl

theorem higherSeverity_cases (a b : Severity) :
    higherSeverity a b = a ∨ higherSeverity a b = b := by
  unfold higherSeverity
  by_cases h : severityWeight b ≤ severityWeight a
  · exact Or.inl (if_pos h)
  · exact Or.inr (if_neg h)

theorem weight_le_higher_left (a b : Severity) :
    severityWeight a ≤ severityWeight (higherSeverity a b) := by
  unfold higherSeverity
  by_cases h : severityWeight b ≤ severityWeight a
  · rw [if_pos h]
  · rw [if_neg h]
    exact le_of_lt (lt_of_not_le h)

theorem weight_le_higher_right (a b : Severity) :
    severityWeight b ≤ severityWeight (higherSeverity a b) := by
  unfold higherSeverity
  by_cases h : severityWeight b ≤ severityWeight a
  · rw [if_pos h]
    exact h
  · rw [if_neg h]

theorem foldl_merge_severity_mem (gs : List Finding) (r : RankedFinding) :
    (gs.foldl mergeRecord r).severity = r.severity ∨
      ∃ g ∈ gs, (gs.foldl mergeRecord r).severity = g.severity := by
  induction gs generalizing r with
  | nil => exact Or.inl rfl
  | cons g gs ih =>
      rw [List.foldl_cons]
      rcases ih (mergeRecord r g) with h | ⟨g', hg', he⟩
      · rw [h, mergeRecord_severity]
        rcases higherSeverity_cases r.severity g.severity with h2 | h2
        · exact Or.inl h2
        · exact Or.inr ⟨g, List.mem_cons_self _ _, h2⟩
      · exact Or.inr ⟨g', List.mem_cons_of_mem _ hg', he⟩

theorem foldl_merge_severity_ge_init (gs : List Finding) (r : RankedFinding) :
    severityWeight r.severity ≤
      severityWeight (gs.foldl mergeRecord r).severity := by
  induction gs generalizing r with
  | nil => exact le_refl _
  | cons g gs ih =>
      rw [List.foldl_cons]
      refine le_trans ?_ (ih (mergeRecord r g))
      rw [mergeRecord_severity]
      exact weight_le_higher_left _ _

theorem foldl_merge_severity_ge (gs : List Finding) (r : RankedFinding)
    (g : Finding) (hg : g ∈ gs) :
    severityWeight g.severity ≤
      severityWeight (gs.foldl mergeRecord r).severity := by
  induction gs generalizing r with
  | nil => simp at hg
  | cons g₁ gs ih =>
      rw [List.foldl_cons]
      rcases List.mem_cons.mp hg with rfl | hmem
      · refine le_trans ?_ (foldl_merge_severity_ge_init gs (mergeRecord r g))
        rw [mergeRecord_severity]
        exact weight_le_higher_right _ _
      · exact ih (mergeRecord r g₁) hmem

theorem foldl_merge_confidence_mem (gs : List Finding) (r : RankedFinding) :
    (gs.foldl mergeRecord r).confidence = r.confidence ∨
      ∃ g ∈ gs, (gs.foldl mergeRecord r).confidence =
        clampConfidence g.confidence := by
  induction gs generalizing r with
  | nil => exact Or.inl rfl
  | cons g gs ih =>
      rw [List.foldl_cons]
      rcases ih (mergeRecord r g) with h | ⟨g', hg', he⟩
      · rw [h, mergeRecord_confidence, qMax_eq]
        rcases max_choice r.confidence (clampConfidence g.confidence) with h2 | h2
        · exact Or.inl h2
        · exact Or.inr ⟨g, List.mem_cons_self _ _, h2⟩
      · exact Or.inr ⟨g', List.mem_cons_of_mem _ hg', he⟩

theorem foldl_merge_confidence_ge_init (gs : List Finding)
    (r : RankedFinding) :
    r.confidence ≤ (gs.foldl mergeRecord r).confidence := by
  induction gs generalizing r with
  | nil => exact le_refl _
  | cons g gs ih =>
      rw [List.foldl_cons]
      refine le_trans ?_ (ih (mergeRecord r g))
      rw [mergeRecord_confidence, qMax_eq]
      exact le_max_left _ _

theorem foldl_merge_confidence_ge (gs : List Finding) (r : RankedFinding)
    (g : Finding) (hg : g ∈ gs) :
    clampConfidence g.confidence ≤ (gs.foldl mergeRecord r).confidence := by
  induction gs generalizing r with
  | nil => simp at hg
  | cons g₁ gs ih =>
      rw [List.foldl_cons]
      rcases List.mem_cons.mp hg with rfl | hmem
      · refine le_trans ?_ (foldl_merge_confidence_ge_init gs (mergeRecord r g))
        rw [mergeRecord_confidence, qMax_eq]
        exact le_max_right _ _
      · exact ih (mergeRecord r g₁) hmem

theorem mem_jsSetDedupAux (x : ReviewRole) (seen l : List ReviewRole) :
    x ∈ jsSetDedupAux seen l ↔ x ∈ l ∧ x ∉ seen := by
  induction l generalizing seen with
  | nil => simp [jsSetDedupAux]
  | cons a rest ih =>
      by_cases ha : a ∈ seen
      · rw [jsSetDedupAux, if_pos ha, ih]
        constructor
        · rintro ⟨hm, hn⟩
          exact ⟨List.mem_cons_of_mem _ hm, hn⟩
        · rintro ⟨hm, hn⟩
          rcases List.mem_cons.mp hm with rfl | hm'
          · exact absurd ha hn
          · exact ⟨hm', hn⟩
      · rw [jsSetDedupAux, if_neg ha]
        constructor
        · intro hm
          rcases List.mem_cons.mp hm with rfl | hm'
          · exact ⟨List.mem_cons_self _ _, ha⟩
          · obtain ⟨h1, h2⟩ := (ih (a :: seen)).mp hm'
            refine ⟨List.mem_cons_of_mem _ h1, ?_⟩
            intro hc
            exact h2 (List.mem_cons_of_mem _ hc)
        · rintro ⟨hm, hn⟩
          rcases List.mem_cons.mp hm with rfl | hm'
          · exact List.mem_cons_self _ _
          · by_cases hxa : x = a
            · subst hxa
              exact List.mem_cons_self _ _
            · refine List.mem_cons_of_mem _ ((ih (a :: seen)).mpr ⟨hm', ?_⟩)
              intro hc
              rcases List.mem_cons.mp hc with h | h
              · exact hxa h
              · exact hn h

theorem mem_jsSetDedup (x : ReviewRole) (l : List ReviewRole) :
    x ∈ jsSetDedup l ↔ x ∈ l := by
  rw [jsSetDedup, mem_jsSetDedupAux]
  simp

theorem foldl_merge_roles_mem (gs : List Finding) (r : RankedFinding)
    (ρ : ReviewRole) :
    ρ ∈ (gs.foldl mergeRecord r).supportingRoles ↔
      ρ ∈ r.supportingRoles ∨ ∃ g ∈ gs, g.role = ρ := by
  induction gs generalizing r with
  | nil => simp
  | cons g gs ih =>
      rw [List.foldl_cons, ih (mergeRecord r g), mergeRecord_supportingRoles,
        mem_jsSetDedup, List.mem_append, List.mem_singleton]
      constructor
      · rintro ((h | h) | ⟨g', hg', hrole⟩)
        · exact Or.inl h
        · exact Or.inr ⟨g, List.mem_cons_self _ _, h.symm⟩
        · exact Or.inr ⟨g', List.mem_cons_of_mem _ hg', hrole⟩
      · rintro (h | ⟨g', hg', hrole⟩)
        · exact Or.inl (Or.inl h)
        · rcases List.mem_cons.mp hg' with rfl | hm
          · exact Or.inl (Or.inr hrole.symm)
          · exact Or.inr ⟨g', hm, hrole⟩

theorem rankInsert_perm (x : RankedFinding) (l : List RankedFinding) :
    (rankInsert x l).Perm (x :: l) := by
  induction l with
  | nil => exact List.Perm.refl _
  | cons y ys ih =>
      unfold rankInsert
      by_cases h : rankPrecedes x y
      · rw [if_pos h]
      · rw [if_neg h]
        exact (ih.cons y).trans (List.Perm.swap x y ys)

theorem foldl_rankInsert_perm (l acc : List RankedFinding) :
    (l.foldl (fun a x => rankInsert x a) acc).Perm (acc ++ l) := by
  induction l generalizing acc with
  | nil => simp
  | cons x xs ih =>
      rw [List.foldl_cons]
      refine (ih (rankInsert x acc)).trans ?_
      refine (((rankInsert_perm x acc).append_right xs).trans ?_)
      exact List.perm_middle.symm

theorem rankSort_perm (l : List RankedFinding) : (rankSort l).Perm l := by
  simpa using foldl_rankInsert_perm l []

theorem countP_dedupeKey_map_withScore (l : List RankedFinding)
    (key : String) :
    (l.map (fun r => { r with score := rankScoreOf r })).countP
        (fun r => decide (r.dedupeKey = key)) =
      l.countP (fun r => decide (r.dedupeKey = key)) := by
  induction l with
  | nil => rfl
  | cons r rest ih =>
      rw [List.map_cons, List.countP_cons, List.countP_cons, ih]

/-- C1: `rankFindings` produces exactly one output record per distinct
dedupe key (present iff the key has at least one finding); for each
record, its severity equals the maximum severity among the findings
sharing its key, its confidence equals the maximum clamped confidence
among them (`NaN` treated as `0`), and its supporting roles are exactly
the set of their roles. -/
theorem rankFindings_merges_by_key (env : JsEnv) (findings : List Finding) :
    (∀ key, (rankFindings env findings).countP
        (fun r => decide (r.dedupeKey = key)) =
      if (keyGroup env key findings).isEmpty then 0 else 1) ∧
    (∀ r ∈ rankFindings env findings,
      ((∃ g ∈ keyGroup env r.dedupeKey findings, r.severity = g.severity) ∧
       ∀ g ∈ keyGroup env r.dedupeKey findings,
         severityWeight g.severity ≤ severityWeight r.severity) ∧
      ((∃ g ∈ keyGroup env r.dedupeKey findings,
          r.confidence = clampConfidence g.confidence) ∧
       ∀ g ∈ keyGroup env r.dedupeKey findings,
         clampConfidence g.confidence ≤ r.confidence) ∧
      (∀ ρ, ρ ∈ r.supportingRoles ↔
        ∃ g ∈ keyGroup env r.dedupeKey findings, g.role = ρ)) := by
  have hinv : dedupeInv (findings.foldl (dedupeStep env) []) :=
    foldl_dedupe_inv env findings [] ⟨by simp, by simp⟩
  constructor
  · intro key
    unfold rankFindings
    rw [(rankSort_perm (dedupeFindings env findings)).countP_eq]
    unfold dedupeFindings
    rw [countP_dedupeKey_map_withScore]
    rw [values_countP (findings.foldl (dedupeStep env) []) hinv key]
    have hlook := dedupe_lookup env findings [] key
    cases hkg : keyGroup env key findings with
    | nil =>
        have h1 : mapLookup (findings.foldl (dedupeStep env) []) key = none := by
          rw [hlook, hkg]
          rfl
        rw [h1]
        simp
    | cons g₀ gs =>
        have h1 : mapLookup (findings.foldl (dedupeStep env) []) key =
            some (gs.foldl mergeRecord (initialRecord key g₀)) := by
          rw [hlook, hkg]
          rfl
        rw [h1]
        simp
  · intro r hr
    unfold rankFindings at hr
    have hmem : r ∈ dedupeFindings env findings :=
      (rankSort_perm (dedupeFindings env findings)).mem_iff.mp hr
    unfold dedupeFindings at hmem
    obtain ⟨r₀, hr₀, rfl⟩ := List.mem_map.mp hmem
    obtain ⟨⟨k, r₀'⟩, he, rfl⟩ := List.mem_map.mp hr₀
    have hlk : mapLookup (findings.foldl (dedupeStep env) []) k = some r₀' :=
      mem_mapLookup _ hinv.2 k r₀' he
    rw [dedupe_lookup env findings [] k] at hlk
    cases hkg : keyGroup env k findings with
    | nil =>
        rw [hkg] at hlk
        exact absurd (show (none : Option RankedFinding) = some r₀' from hlk)
          (by simp)
    | cons g₀ gs =>
        rw [hkg] at hlk
        have hr0 : r₀' = gs.foldl mergeRecord (initialRecord k g₀) :=
          (Option.some.inj
            (show some (gs.foldl mergeRecord (initialRecord k g₀)) =
              some r₀' from hlk)).symm
        subst hr0
        simp only [foldl_merge_dedupeKey, initialRecord_dedupeKey, hkg]
        refine ⟨⟨?_, ?_⟩, ⟨?_, ?_⟩, ?_⟩
        · rcases foldl_merge_severity_mem gs (initialRecord k g₀) with h | ⟨g, hg, hgs⟩
          · exact ⟨g₀, List.mem_cons_self _ _, h⟩
          · exact ⟨g, List.mem_cons_of_mem _ hg, hgs⟩
        · intro g hg
          rcases List.mem_cons.mp hg with rfl | hm
          · exact foldl_merge_severity_ge_init gs (initialRecord k g)
          · exact foldl_merge_severity_ge gs (initialRecord k g₀) g hm
        · rcases foldl_merge_confidence_mem gs (initialRecord k g₀) with h | ⟨g, hg, hgc⟩
          · exact ⟨g₀, List.mem_cons_self _ _, h⟩
          · exact ⟨g, List.mem_cons_of_mem _ hg, hgc⟩
        · intro g hg
          rcases List.mem_cons.mp hg with rfl | hm
          · exact foldl_merge_confidence_ge_init gs (initialRecord k g)
          · exact foldl_merge_confidence_ge gs (initialRecord k g₀) g hm
        · intro ρ
          constructor
          · intro h
            rcases (foldl_merge_roles_mem gs (initialRecord k g₀) ρ).mp h with
              h1 | ⟨g, hg, hrole⟩
            · exact ⟨g₀, List.mem_cons_self _ _,
                (List.mem_singleton.mp h1).symm⟩
            · exact ⟨g, List.mem_cons_of_mem _ hg, hrole⟩
          · rintro ⟨g, hg, hrole⟩
            apply (foldl_merge_roles_mem gs (initialRecord k g₀) ρ).mpr
            rcases List.mem_cons.mp hg with rfl | hm
            · refine Or.inl ?_
              rw [← hrole]
              exact List.mem_singleton_self _
            · exact Or.inr ⟨g, hm, hrole⟩

/-- A concrete finding carrying an explicit dedupe key. -/
def fW1 : Finding :=
  { id := "a", repo := "r", prNumber := 1, role := .security,
    severity := .high, confidence := some (mkRat 1 2), file := "f",
    startLine := 1, endLine := 2, title := "t", issueKey := "k1",
    evidence := [], dedupeKey := "k" }

/-- The ranked record `rankFindings` produces from `[fW1]`. -/
def rW1 : RankedFinding :=
  { initialRecord "k" fW1 with score := rankScoreOf (initialRecord "k" fW1) }

theorem rankFindings_merges_by_key_witness :
    (rankFindings envW [fW1]).countP (fun r => decide (r.dedupeKey = "k")) = 1 ∧
    ∃ g ∈ keyGroup envW rW1.dedupeKey [fW1], rW1.severity = g.severity :=
  ⟨((rankFindings_merges_by_key envW [fW1]).1 "k").trans (by decide),
   ((rankFindings_merges_by_key envW [fW1]).2 rW1
      (List.mem_singleton_self rW1)).1.1⟩

